import Mathlib

/-!
# Verification of the side-by-side diff tool

Shallow embedding of the two source files of the repository:

* `side_diff.rs` — the core alignment-and-formatting engine
  (`Line`, `Diff`, `dispatch_to_output`, `split_lines`, `diff`);
* `sdiff.rs` — the CLI layer (`parse_params` and the exit-status selection
  of `main`).

Bytes are modelled as `Nat` and byte buffers as `List Nat` (so 10 = `\n`,
32 = space, 60 = `<`, 62 = `>`, 124 = `|`).  The build is modelled for the
non-Windows target, where the emitted line terminator is the single byte 10.

Two pieces of code the repository depends on are not present under the
sources and are modelled from the specification, each marked in its doc
comment: `limited_string` (defined in `utils.rs`) and the external
edit-script collaborator `diff::slice` (the LCS computation the spec
explicitly excludes from the core).
-/

namespace SideDiff

/-- `Line` from side_diff.rs (lines 8-12): an indexed line record.
`line_ndx` is the 0-based ordinal of the line in its source buffer,
`content` its bytes without the separator. -/
structure Line where
  line_ndx : Nat
  content : List Nat
  deriving DecidableEq

instance : Inhabited Line := ⟨⟨0, []⟩⟩

/-- `Diff` from side_diff.rs (lines 14-18): one reconciled row pairing a
left and a right line. -/
structure Diff where
  left_ln : Line
  right_ln : Line
  deriving DecidableEq

/-- The derived `PartialEq` on `Line` (side_diff.rs line 8): field-wise
equality of both the ordinal index and the content bytes.  This is the
equality under which `diff::slice(&left_lines, &right_lines)` compares
lines. -/
def lineEq (l r : Line) : Bool :=
  l.line_ndx == r.line_ndx && l.content == r.content

/-- Modelled from the spec: `limited_string` is defined in `src/utils.rs`,
which is not among the sources here; the spec fixes its behavior as
truncation of the content to its first `limit` bytes (byte-indexed). -/
def limited_string (s : List Nat) (limit : Nat) : List Nat :=
  s.take limit

/-- `push_output` from side_diff.rs (lines 40-75), non-Windows target.
The space padding is computed as in the source: signed
`(tab_size - left_ln.len()).max(0)`, and the `for _ in 0..(tab_size + 1)`
loop pushes one space more than that. -/
def push_output (output left_ln right_ln symbol : List Nat) (tab_size : Nat) : List Nat :=
  let t : Int := max ((tab_size : Int) - (left_ln.length : Int)) 0
  output ++ left_ln ++ List.replicate (t + 1).toNat 32 ++ symbol ++ [32] ++ right_ln ++ [10]

/-- `dispatch_to_output` from side_diff.rs (lines 32-114): skip silently if
the left line's index was already dispatched; otherwise record it and append
one formatted row, with `tab_spaces = limiter = 61` and the symbol
62 = `>` (left content empty, right nonempty), 60 = `<` (left nonempty,
right empty), and otherwise 32 = space when the contents are equal,
124 = `|` when they differ. -/
def dispatch_to_output (output : List Nat) (to_dispatch_val : Diff)
    (already_dispatched : List Nat) : List Nat × List Nat :=
  if to_dispatch_val.left_ln.line_ndx ∈ already_dispatched then
    (output, already_dispatched)
  else
    let already := already_dispatched ++ [to_dispatch_val.left_ln.line_ndx]
    if to_dispatch_val.right_ln.content ≠ [] ∧ to_dispatch_val.left_ln.content = [] then
      (push_output output [] (limited_string to_dispatch_val.right_ln.content 61) [62] 61,
        already)
    else if to_dispatch_val.left_ln.content ≠ [] ∧ to_dispatch_val.right_ln.content = [] then
      (push_output output (limited_string to_dispatch_val.left_ln.content 61) [] [60] 61,
        already)
    else
      (push_output output (limited_string to_dispatch_val.left_ln.content 61)
        (limited_string to_dispatch_val.right_ln.content 61)
        (if to_dispatch_val.left_ln.content = to_dispatch_val.right_ln.content
         then [32] else [124]) 61,
        already)

/-- Rust `slice::split` on the byte 10: the subslices between separators,
the separator excluded; an empty input yields one empty subslice. -/
def splitNl : List Nat → List (List Nat)
  | [] => [[]]
  | c :: rest =>
    if c = 10 then [] :: splitNl rest
    else
      match splitNl rest with
      | [] => [[c]]
      | l :: ls => (c :: l) :: ls

/-- `split_lines` from side_diff.rs (lines 118-124): split the buffer on
`\n` and enumerate, so each `Line` carries its ordinal position. -/
def split_lines (input : List Nat) : List Line :=
  (List.enum (splitNl input)).map fun p => Line.mk p.1 p.2

/-- Modelled from the spec: the entry type of the external edit-script
collaborator (`diff::Result`): only-left, only-right, present-in-both. -/
inductive DiffResult where
  | Left (l : Line)
  | Right (r : Line)
  | Both (l r : Line)
  deriving DecidableEq

/-- Modelled from the spec: fuel-indexed longest-common-subsequence length
for the external LCS edit-script computation that the spec excludes from
the core.  Fuel `ls.length + rs.length` is always sufficient. -/
def lcsLenF (eq : Line → Line → Bool) : Nat → List Line → List Line → Nat
  | _, [], _ => 0
  | _, _ :: _, [] => 0
  | 0, _ :: _, _ :: _ => 0
  | fuel + 1, l :: ls, r :: rs =>
    if eq l r then lcsLenF eq fuel ls rs + 1
    else max (lcsLenF eq fuel (l :: ls) rs) (lcsLenF eq fuel ls (r :: rs))

/-- Modelled from the spec: LCS length with sufficient fuel. -/
def lcsLen (eq : Line → Line → Bool) (ls rs : List Line) : Nat :=
  lcsLenF eq (ls.length + rs.length) ls rs

/-- Modelled from the spec: the external alignment collaborator
`diff::slice`, an LCS edit script over the given element equality: equal
heads pair as `Both`; otherwise the script advances on the side whose
remaining subproblem has the longer common subsequence, emitting `Left`
entries before `Right` entries at ties. -/
def sliceF (eq : Line → Line → Bool) : Nat → List Line → List Line → List DiffResult
  | 0, _, _ => []
  | _ + 1, [], [] => []
  | fuel + 1, [], r :: rs => .Right r :: sliceF eq fuel [] rs
  | fuel + 1, l :: ls, [] => .Left l :: sliceF eq fuel ls []
  | fuel + 1, l :: ls, r :: rs =>
    if eq l r then .Both l r :: sliceF eq fuel ls rs
    else if lcsLen eq (l :: ls) rs ≤ lcsLen eq ls (r :: rs) then
      .Left l :: sliceF eq fuel ls (r :: rs)
    else
      .Right r :: sliceF eq fuel (l :: ls) rs

/-- Modelled from the spec: `diff::slice` with sufficient fuel. -/
def slice (eq : Line → Line → Bool) (ls rs : List Line) : List DiffResult :=
  sliceF eq (ls.length + rs.length) ls rs

/-- One iteration of the reconciliation loop of `diff`
(side_diff.rs lines 173-214): a one-sided entry looks up the line at the
same ordinal position on the other side and, failing that, pairs with a
fake line of the same index and empty content. -/
def processEntry (left_lines right_lines : List Line) (st : List Nat × List Nat) :
    DiffResult → List Nat × List Nat
  | .Left l =>
    match right_lines.get? l.line_ndx with
    | some right_ln => dispatch_to_output st.1 ⟨l, right_ln⟩ st.2
    | none => dispatch_to_output st.1 ⟨l, ⟨l.line_ndx, []⟩⟩ st.2
  | .Right r =>
    match left_lines.get? r.line_ndx with
    | some left_ln => dispatch_to_output st.1 ⟨left_ln, r⟩ st.2
    | none => dispatch_to_output st.1 ⟨⟨r.line_ndx, []⟩, r⟩ st.2
  | .Both l r => dispatch_to_output st.1 ⟨l, r⟩ st.2

/-- The reconciliation loop of `diff` over the whole edit script. -/
def processEntries (left_lines right_lines : List Line) (entries : List DiffResult)
    (st : List Nat × List Nat) : List Nat × List Nat :=
  entries.foldl (processEntry left_lines right_lines) st

/-- `diff` from side_diff.rs (lines 116-217): split both buffers into
indexed lines; if the first line of each side has empty content, return the
empty buffer; otherwise run the reconciliation loop over the edit script
produced by the collaborator, starting from an empty output buffer and an
empty dispatched set. -/
def diff (from_file to_file : List Nat) : List Nat :=
  let left_lines := split_lines from_file
  let right_lines := split_lines to_file
  if left_lines.headI.content = [] ∧ right_lines.headI.content = [] then []
  else
    (processEntries left_lines right_lines (slice lineEq left_lines right_lines) ([], [])).1

namespace Sdiff

/-- `Params` from sdiff.rs (lines 12-16); `OsString` is modelled as
`String`. -/
structure Params where
  file1 : String
  file2 : String
  deriving DecidableEq

/-- `ParseErr` from sdiff.rs (lines 18-21). -/
inductive ParseErr where
  | InsufficientArgs
  deriving DecidableEq

/-- `parse_params` from sdiff.rs (lines 104-118): drop the executable name,
then require two further arguments. -/
def parse_params : List String → Except ParseErr Params
  | _ :: a1 :: a2 :: _ => .ok ⟨a1, a2⟩
  | _ => .error .InsufficientArgs

/-- The exit-status selection of `main` in sdiff.rs (lines 38-102): 2 when
argument parsing fails, and otherwise `ExitCode::SUCCESS` (0), returned
unconditionally at the end of the formatting loop (line 101).  The file
contents fetched through `readFile` are formatted but never influence the
returned status; a failing `fs::read` panics through `unwrap`
(line 124) instead of returning a status at all. -/
def main_exit_code (opts : List String) (readFile : String → List Nat) : Nat :=
  match parse_params opts with
  | .error _ => 2
  | .ok p =>
    let _left := readFile p.file1
    let _right := readFile p.file2
    0

end Sdiff

/-- Symbol selection as the specification words it: `>` (62) when the left
side is absent (empty content) and the right present, `<` (60) when the
right side is absent and the left present, and for two present sides the
single-space identical symbol (32) exactly when the contents are byte-equal,
`|` (124) when they differ. -/
def claimSymbol (l r : List Nat) : List Nat :=
  if l = [] ∧ r ≠ [] then [62]
  else if l ≠ [] ∧ r = [] then [60]
  else if l = r then [32] else [124]

/-- The bytes a single fresh dispatch appends to the output buffer. -/
def rowBytes (d : Diff) : List Nat :=
  (dispatch_to_output [] d []).1

/-- The left-line index a given edit-script entry touches when the two line
sequences are position-indexed (as `split_lines` results are). -/
def touchedNdx : DiffResult → Nat
  | .Left l => l.line_ndx
  | .Right r => r.line_ndx
  | .Both l _ => l.line_ndx

/-- Count of values in `ns` that are new with respect to `seen`, accumulated
the way the dispatched set grows. -/
def newDist : List Nat → List Nat → Nat
  | _, [] => 0
  | seen, n :: ns => if n ∈ seen then newDist seen ns else newDist (seen ++ [n]) ns + 1

lemma push_output_append (output left_ln right_ln symbol : List Nat) (tab_size : Nat) :
    push_output output left_ln right_ln symbol tab_size =
      output ++ push_output [] left_ln right_ln symbol tab_size := by
  simp [push_output]

lemma dispatch_mem (output already : List Nat) (d : Diff)
    (h : d.left_ln.line_ndx ∈ already) :
    dispatch_to_output output d already = (output, already) := by
  simp [dispatch_to_output, h]

lemma dispatch_fresh (output already : List Nat) (d : Diff)
    (h : d.left_ln.line_ndx ∉ already) :
    dispatch_to_output output d already =
      (output ++ rowBytes d, already ++ [d.left_ln.line_ndx]) := by
  simp only [dispatch_to_output, rowBytes, h, if_false, List.not_mem_nil,
    List.nil_append]
  split_ifs <;> exact Prod.ext (push_output_append _ _ _ _ _) rfl

lemma pad_toNat (n : Nat) : (max ((61 : Int) - (n : Int)) 0 + 1).toNat = (61 - n) + 1 := by
  omega

lemma rowBytes_eq (d : Diff) :
    rowBytes d = limited_string d.left_ln.content 61
      ++ List.replicate ((61 - (limited_string d.left_ln.content 61).length) + 1) 32
      ++ claimSymbol d.left_ln.content d.right_ln.content
      ++ [32] ++ limited_string d.right_ln.content 61 ++ [10] := by
  obtain ⟨⟨n, lc⟩, ⟨m, rc⟩⟩ := d
  simp only [rowBytes, dispatch_to_output, List.not_mem_nil, if_false, claimSymbol]
  by_cases hl : lc = [] <;> by_cases hr : rc = [] <;>
    simp [hl, hr, push_output, limited_string, pad_toNat] <;> omega

lemma count_rowBytes (d : Diff) (hl : 10 ∉ d.left_ln.content) (hr : 10 ∉ d.right_ln.content) :
    (rowBytes d).count 10 = 1 := by
  have hl' : List.count 10 (d.left_ln.content.take 61) = 0 :=
    List.count_eq_zero.mpr fun h => hl (List.take_subset _ _ h)
  have hr' : List.count 10 (d.right_ln.content.take 61) = 0 :=
    List.count_eq_zero.mpr fun h => hr (List.take_subset _ _ h)
  rw [rowBytes_eq]
  simp only [claimSymbol, limited_string, List.count_append]
  split_ifs <;> simp [hl', hr', List.count_replicate]

lemma mem_rowBytes (d : Diff) (b : Nat) (hb : b ∈ rowBytes d) :
    b = 10 ∨ b = 32 ∨ b = 60 ∨ b = 62 ∨ b = 124 ∨
      b ∈ d.left_ln.content.take 61 ∨ b ∈ d.right_ln.content.take 61 := by
  rw [rowBytes_eq] at hb
  simp only [claimSymbol, limited_string, List.mem_append] at hb
  rcases hb with ((((hb | hb) | hb) | hb) | hb) | hb
  · tauto
  · exact Or.inr (Or.inl (List.eq_of_mem_replicate hb))
  · split_ifs at hb <;> simp_all
  · simp_all
  · tauto
  · simp_all

lemma splitNl_ne_nil : ∀ input : List Nat, splitNl input ≠ []
  | [] => by simp [splitNl]
  | c :: rest => by
    simp only [splitNl]
    split_ifs
    · simp
    · cases h : splitNl rest <;> simp

lemma splitNl_headI (input : List Nat) :
    (splitNl input).headI = input.takeWhile (fun c => c != 10) := by
  induction input with
  | nil => simp [splitNl]
  | cons c rest ih =>
    by_cases hc : c = 10
    · subst hc; simp [splitNl]
    · cases h : splitNl rest with
      | nil => exact absurd h (splitNl_ne_nil rest)
      | cons l ls =>
        rw [h] at ih
        simp only [splitNl, if_neg hc, h, List.headI, List.takeWhile_cons]
        simp only [List.headI] at ih
        simp [hc, ih]

lemma splitNl_no_nl : ∀ input : List Nat, ∀ s ∈ splitNl input, 10 ∉ s := by
  intro input
  induction input with
  | nil =>
    intro s hs
    simp only [splitNl, List.mem_singleton] at hs
    simp [hs]
  | cons c rest ih =>
    intro s hs
    by_cases hc : c = 10
    · subst hc
      simp only [splitNl, if_pos rfl] at hs
      rcases List.mem_cons.mp hs with hs | hs
      · rw [hs]; simp
      · exact ih s hs
    · cases h : splitNl rest with
      | nil => exact absurd h (splitNl_ne_nil rest)
      | cons l ls =>
        have hl : 10 ∉ l := ih l (h ▸ List.mem_cons_self l ls)
        simp only [splitNl, if_neg hc, h, List.mem_cons] at hs
        rcases hs with rfl | hs
        · intro hmem
          rcases List.mem_cons.mp hmem with h10 | h10
          · exact hc h10.symm
          · exact hl h10
        · exact ih s (h ▸ List.mem_cons_of_mem l hs)

lemma split_lines_map_content (input : List Nat) :
    (split_lines input).map Line.content = splitNl input := by
  have h : (fun p : Nat × List Nat => (Line.mk p.1 p.2).content) = Prod.snd := rfl
  simp only [split_lines, List.map_map, Function.comp_def, h]
  exact List.enum_map_snd (splitNl input)

lemma split_lines_map_ndx (input : List Nat) :
    (split_lines input).map Line.line_ndx = List.range (splitNl input).length := by
  have h : (fun p : Nat × List Nat => (Line.mk p.1 p.2).line_ndx) = Prod.fst := rfl
  simp only [split_lines, List.map_map, Function.comp_def, h]
  exact List.enum_map_fst (splitNl input)

lemma split_lines_ne_nil (input : List Nat) : split_lines input ≠ [] := by
  intro h
  have := congrArg (List.map Line.content) h
  rw [split_lines_map_content] at this
  exact splitNl_ne_nil input this

lemma split_lines_no_nl (input : List Nat) :
    ∀ l ∈ split_lines input, 10 ∉ l.content := by
  intro l hl
  exact splitNl_no_nl input l.content
    (split_lines_map_content input ▸ List.mem_map_of_mem Line.content hl)

lemma split_lines_pos_indexed (input : List Nat) (i : Nat) (l : Line)
    (h : (split_lines input).get? i = some l) : l.line_ndx = i := by
  have hm : ((split_lines input).map Line.line_ndx).get? i = some l.line_ndx := by
    rw [List.get?_map, h]; rfl
  rw [split_lines_map_ndx] at hm
  have hi : i < (splitNl input).length := by
    by_contra hge
    rw [List.get?_eq_none.mpr (by simpa [List.length_range] using Nat.le_of_not_lt hge)] at hm
    exact Option.noConfusion hm
  rw [List.get?_range hi] at hm
  exact (Option.some.inj hm).symm

lemma split_lines_headI_content (input : List Nat) :
    (split_lines input).headI.content = input.takeWhile (fun c => c != 10) := by
  rw [← splitNl_headI]
  cases h : splitNl input with
  | nil => exact absurd h (splitNl_ne_nil input)
  | cons s ss => simp [split_lines, h, List.enum_cons]

/-- Well-formedness of an edit-script entry with respect to the two line
sequences it was computed from: each reported line is a member of its side. -/
def entryWf (leftL rightL : List Line) : DiffResult → Prop
  | .Left l => l ∈ leftL
  | .Right r => r ∈ rightL
  | .Both l r => l ∈ leftL ∧ r ∈ rightL

lemma entryWf_mono {l1 l2 r1 r2 : List Line} (hl : l1 ⊆ l2) (hr : r1 ⊆ r2) :
    ∀ e, entryWf l1 r1 e → entryWf l2 r2 e := by
  intro e he
  cases e with
  | Left l => exact hl he
  | Right r => exact hr he
  | Both l r => exact ⟨hl he.1, hr he.2⟩

lemma sliceF_wf (eq : Line → Line → Bool) :
    ∀ (fuel : Nat) (ls rs : List Line), ∀ e ∈ sliceF eq fuel ls rs, entryWf ls rs e := by
  intro fuel
  induction fuel with
  | zero => intro ls rs e he; simp [sliceF] at he
  | succ fuel ih =>
    intro ls rs e he
    match ls, rs with
    | [], [] => simp [sliceF] at he
    | [], r :: rs' =>
      rw [sliceF] at he
      rcases List.mem_cons.mp he with rfl | he
      · exact List.mem_cons_self r rs'
      · exact entryWf_mono (List.Subset.refl _) (List.subset_cons_self r rs') e (ih [] rs' e he)
    | l :: ls', [] =>
      rw [sliceF] at he
      rcases List.mem_cons.mp he with rfl | he
      · exact List.mem_cons_self l ls'
      · exact entryWf_mono (List.subset_cons_self l ls') (List.Subset.refl _) e (ih ls' [] e he)
    | l :: ls', r :: rs' =>
      rw [sliceF] at he
      split_ifs at he
      · rcases List.mem_cons.mp he with rfl | he
        · exact ⟨List.mem_cons_self l ls', List.mem_cons_self r rs'⟩
        · exact entryWf_mono (List.subset_cons_self l ls') (List.subset_cons_self r rs') e
            (ih ls' rs' e he)
      · rcases List.mem_cons.mp he with rfl | he
        · exact List.mem_cons_self l ls'
        · exact entryWf_mono (List.subset_cons_self l ls') (List.Subset.refl _) e
            (ih ls' (r :: rs') e he)
      · rcases List.mem_cons.mp he with rfl | he
        · exact List.mem_cons_self r rs'
        · exact entryWf_mono (List.Subset.refl _) (List.subset_cons_self r rs') e
            (ih (l :: ls') rs' e he)

lemma slice_wf (eq : Line → Line → Bool) (ls rs : List Line) :
    ∀ e ∈ slice eq ls rs, entryWf ls rs e :=
  sliceF_wf eq (ls.length + rs.length) ls rs

lemma sliceF_self (eq : Line → Line → Bool) (heq : ∀ x : Line, eq x x = true) :
    ∀ (xs : List Line) (fuel : Nat), xs.length ≤ fuel →
      sliceF eq fuel xs xs = xs.map fun l => .Both l l := by
  intro xs
  induction xs with
  | nil => intro fuel _; cases fuel <;> simp [sliceF]
  | cons x xs ih =>
    intro fuel hf
    cases fuel with
    | zero => simp at hf
    | succ fuel =>
      have hf' : xs.length ≤ fuel := by simpa using hf
      rw [sliceF, if_pos (heq x), ih fuel hf', List.map_cons]

lemma slice_self (eq : Line → Line → Bool) (heq : ∀ x : Line, eq x x = true)
    (xs : List Line) : slice eq xs xs = xs.map fun l => .Both l l :=
  sliceF_self eq heq xs (xs.length + xs.length) (Nat.le_add_right _ _)

lemma lineEq_self (l : Line) : lineEq l l = true := by
  simp [lineEq]

/-- The `Diff` row the reconciliation loop builds for one edit-script entry
(the positional-lookup logic of side_diff.rs lines 173-214). -/
def entryDiff (left_lines right_lines : List Line) : DiffResult → Diff
  | .Left l =>
    match right_lines.get? l.line_ndx with
    | some right_ln => ⟨l, right_ln⟩
    | none => ⟨l, ⟨l.line_ndx, []⟩⟩
  | .Right r =>
    match left_lines.get? r.line_ndx with
    | some left_ln => ⟨left_ln, r⟩
    | none => ⟨⟨r.line_ndx, []⟩, r⟩
  | .Both l r => ⟨l, r⟩

lemma processEntry_eq (leftL rightL : List Line) (st : List Nat × List Nat) (e : DiffResult) :
    processEntry leftL rightL st e = dispatch_to_output st.1 (entryDiff leftL rightL e) st.2 := by
  cases e with
  | Left l =>
    simp only [processEntry, entryDiff]
    cases rightL.get? l.line_ndx <;> rfl
  | Right r =>
    simp only [processEntry, entryDiff]
    cases leftL.get? r.line_ndx <;> rfl
  | Both l r => rfl

lemma entryDiff_ndx (leftL rightL : List Line)
    (hpos : ∀ i l, leftL.get? i = some l → l.line_ndx = i) (e : DiffResult) :
    (entryDiff leftL rightL e).left_ln.line_ndx = touchedNdx e := by
  cases e with
  | Left l =>
    simp only [entryDiff, touchedNdx]
    cases rightL.get? l.line_ndx <;> rfl
  | Right r =>
    simp only [entryDiff, touchedNdx]
    cases h : leftL.get? r.line_ndx with
    | none => rfl
    | some l0 => exact hpos _ _ h
  | Both l r => rfl

lemma entryDiff_sides (leftL rightL : List Line) (e : DiffResult)
    (he : entryWf leftL rightL e) :
    ((entryDiff leftL rightL e).left_ln ∈ leftL ∨ (entryDiff leftL rightL e).left_ln.content = [])
    ∧ ((entryDiff leftL rightL e).right_ln ∈ rightL
        ∨ (entryDiff leftL rightL e).right_ln.content = []) := by
  cases e with
  | Left l =>
    simp only [entryDiff]
    cases h : rightL.get? l.line_ndx with
    | none => exact ⟨Or.inl he, Or.inr rfl⟩
    | some r0 => exact ⟨Or.inl he, Or.inl (List.get?_mem h)⟩
  | Right r =>
    simp only [entryDiff]
    cases h : leftL.get? r.line_ndx with
    | none => exact ⟨Or.inr rfl, Or.inl he⟩
    | some l0 => exact ⟨Or.inl (List.get?_mem h), Or.inl he⟩
  | Both l r => exact ⟨Or.inl he.1, Or.inl he.2⟩

lemma processEntries_count (leftL rightL : List Line)
    (hpos : ∀ i l, leftL.get? i = some l → l.line_ndx = i)
    (hcl : ∀ l ∈ leftL, 10 ∉ l.content) (hcr : ∀ r ∈ rightL, 10 ∉ r.content) :
    ∀ (entries : List DiffResult) (output already : List Nat),
      (∀ e ∈ entries, entryWf leftL rightL e) →
      ((processEntries leftL rightL entries (output, already)).1).count 10
        = output.count 10 + newDist already (entries.map touchedNdx) := by
  intro entries
  induction entries with
  | nil => intro output already _; simp [processEntries, newDist]
  | cons e es ih =>
    intro output already hw
    have hwe : entryWf leftL rightL e := hw e (List.mem_cons_self _ _)
    have hwes : ∀ x ∈ es, entryWf leftL rightL x :=
      fun x hx => hw x (List.mem_cons_of_mem _ hx)
    have hndx : (entryDiff leftL rightL e).left_ln.line_ndx = touchedNdx e :=
      entryDiff_ndx _ _ hpos e
    simp only [processEntries, List.foldl_cons, processEntry_eq, List.map_cons]
    by_cases hmem : touchedNdx e ∈ already
    · rw [dispatch_mem _ _ _ (by rw [hndx]; exact hmem)]
      have h1 := ih output already hwes
      simp only [processEntries] at h1
      rw [h1, newDist, if_pos hmem]
    · have hln : 10 ∉ (entryDiff leftL rightL e).left_ln.content := by
        rcases (entryDiff_sides leftL rightL e hwe).1 with h | h
        · exact hcl _ h
        · rw [h]; simp
      have hrn : 10 ∉ (entryDiff leftL rightL e).right_ln.content := by
        rcases (entryDiff_sides leftL rightL e hwe).2 with h | h
        · exact hcr _ h
        · rw [h]; simp
      rw [dispatch_fresh _ _ _ (by rw [hndx]; exact hmem), hndx]
      have h1 := ih (output ++ rowBytes (entryDiff leftL rightL e))
        (already ++ [touchedNdx e]) hwes
      simp only [processEntries] at h1
      rw [h1, List.count_append, count_rowBytes _ hln hrn, newDist, if_neg hmem]
      omega

lemma processEntries_mem (leftL rightL : List Line) :
    ∀ (entries : List DiffResult) (output already : List Nat) (b : Nat),
      (∀ e ∈ entries, entryWf leftL rightL e) →
      b ∈ (processEntries leftL rightL entries (output, already)).1 →
      b ∈ output ∨ b = 10 ∨ b = 32 ∨ b = 60 ∨ b = 62 ∨ b = 124 ∨
        ∃ l, (l ∈ leftL ∨ l ∈ rightL) ∧ b ∈ l.content.take 61 := by
  intro entries
  induction entries with
  | nil =>
    intro output already b _ hb
    exact Or.inl (by simpa [processEntries] using hb)
  | cons e es ih =>
    intro output already b hw hb
    have hwe : entryWf leftL rightL e := hw e (List.mem_cons_self _ _)
    have hwes : ∀ x ∈ es, entryWf leftL rightL x :=
      fun x hx => hw x (List.mem_cons_of_mem _ hx)
    simp only [processEntries, List.foldl_cons, processEntry_eq] at hb
    by_cases hmem : (entryDiff leftL rightL e).left_ln.line_ndx ∈ already
    · rw [dispatch_mem _ _ _ hmem] at hb
      exact ih output already b hwes hb
    · rw [dispatch_fresh _ _ _ hmem] at hb
      have h1 := ih (output ++ rowBytes (entryDiff leftL rightL e))
        (already ++ [(entryDiff leftL rightL e).left_ln.line_ndx]) b hwes hb
      have hsides := entryDiff_sides leftL rightL e hwe
      -- a byte taken from either side of the dispatched row comes from a
      -- real line of one of the two sequences (a fake line has no bytes)
      have hbridge : (b ∈ (entryDiff leftL rightL e).left_ln.content.take 61
            ∨ b ∈ (entryDiff leftL rightL e).right_ln.content.take 61) →
          ∃ l, (l ∈ leftL ∨ l ∈ rightL) ∧ b ∈ l.content.take 61 := by
        rintro (hm | hm)
        · rcases hsides.1 with hs | hs
          · exact ⟨_, Or.inl hs, hm⟩
          · rw [hs] at hm; simp at hm
        · rcases hsides.2 with hs | hs
          · exact ⟨_, Or.inr hs, hm⟩
          · rw [hs] at hm; simp at hm
      rcases h1 with h1 | h1
      · rcases List.mem_append.mp h1 with h1 | h1
        · exact Or.inl h1
        · exact Or.inr (Or.imp id (Or.imp id (Or.imp id (Or.imp id (Or.imp id hbridge))))
            (mem_rowBytes _ b h1))
      · exact Or.inr h1

lemma newDist_card (ns : List Nat) :
    ∀ seen : List Nat, newDist seen ns = (ns.toFinset \ seen.toFinset).card := by
  induction ns with
  | nil => intro seen; simp [newDist]
  | cons n ns ih =>
    intro seen
    by_cases hmem : n ∈ seen
    · rw [newDist, if_pos hmem, ih seen]
      congr 1
      ext x
      simp only [List.toFinset_cons, Finset.mem_sdiff, Finset.mem_insert, List.mem_toFinset]
      constructor
      · rintro ⟨hx, hxs⟩; exact ⟨Or.inr hx, hxs⟩
      · rintro ⟨hx | hx, hxs⟩
        · exact absurd (hx ▸ hmem) (by simpa [List.mem_toFinset] using hxs)
        · exact ⟨hx, hxs⟩
    · rw [newDist, if_neg hmem, ih (seen ++ [n])]
      have hset : (n :: ns).toFinset \ seen.toFinset
          = insert n (ns.toFinset \ (seen ++ [n]).toFinset) := by
        ext x
        by_cases hxn : x = n
        · subst hxn; simp [hmem]
        · simp [hxn]
      rw [hset, Finset.card_insert_of_not_mem (by simp)]

/-- `diff` with its let-bindings inlined. -/
lemma diff_eq (A B : List Nat) :
    diff A B =
      if (split_lines A).headI.content = [] ∧ (split_lines B).headI.content = [] then []
      else (processEntries (split_lines A) (split_lines B)
        (slice lineEq (split_lines A) (split_lines B)) ([], [])).1 := rfl

/-- The bytes of one identical-symbol row for a line of content `c`:
the (possibly truncated) content, the padding, the single-space symbol, the
separating space, the content again, and the newline. -/
def identRow (c : List Nat) : List Nat :=
  limited_string c 61 ++ List.replicate ((61 - (limited_string c 61).length) + 1) 32
    ++ [32] ++ [32] ++ limited_string c 61 ++ [10]

lemma rowBytes_self (l : Line) : rowBytes ⟨l, l⟩ = identRow l.content := by
  rw [rowBytes_eq]
  simp [identRow, claimSymbol]

lemma processEntries_both (leftL rightL : List Line) :
    ∀ (ls : List Line) (output already : List Nat),
      (∀ l ∈ ls, l.line_ndx ∉ already) → (ls.map Line.line_ndx).Nodup →
      processEntries leftL rightL (ls.map fun l => DiffResult.Both l l) (output, already)
        = (output ++ ls.flatMap (fun l => identRow l.content),
           already ++ ls.map Line.line_ndx) := by
  intro ls
  induction ls with
  | nil => intro output already _ _; simp [processEntries]
  | cons l ls ih =>
    intro output already hfresh hnodup
    have hn : l.line_ndx ∉ ls.map Line.line_ndx ∧ (ls.map Line.line_ndx).Nodup :=
      List.nodup_cons.mp (by simpa using hnodup)
    have hstep : processEntry leftL rightL (output, already) (DiffResult.Both l l)
        = (output ++ identRow l.content, already ++ [l.line_ndx]) := by
      rw [processEntry_eq]
      simp only [entryDiff]
      rw [dispatch_fresh _ _ _ (hfresh l (List.mem_cons_self _ _)), rowBytes_self]
    simp only [List.map_cons, processEntries, List.foldl_cons]
    rw [hstep]
    have hfresh' : ∀ x ∈ ls, x.line_ndx ∉ already ++ [l.line_ndx] := by
      intro x hx
      simp only [List.mem_append, List.mem_singleton]
      rintro (hmem | hmem)
      · exact hfresh x (List.mem_cons_of_mem _ hx) hmem
      · have h2 : x.line_ndx ∈ ls.map Line.line_ndx := List.mem_map_of_mem _ hx
        rw [hmem] at h2
        exact hn.1 h2
    have hrest := ih (output ++ identRow l.content) (already ++ [l.line_ndx]) hfresh' hn.2
    simp only [processEntries] at hrest
    rw [hrest]
    simp [List.append_assoc]

/-- C1 (counterexample): two `Line`s with equal content bytes but different
ordinal indices are not treated as matching by the equality `diff` hands to
the edit-script collaborator, and consequently the edit script for
left = `"x\na"` against right = `"a"` pairs no line as `Both` even though
the content `"a"` occurs on both sides. -/
theorem c1_counterexample :
    (Line.mk 0 [97]).content = (Line.mk 1 [97]).content
    ∧ lineEq (Line.mk 0 [97]) (Line.mk 1 [97]) = false
    ∧ (slice lineEq (split_lines [120, 10, 97]) (split_lines [97])).all
        (fun e => match e with | .Both _ _ => false | _ => true) = true := by
  decide

/-- C1 (amended): the alignment step compares lines by the derived
structural equality of `Line`: two lines match exactly when both their
content bytes and their ordinal indices are equal. -/
theorem c1_amended_match_iff (l r : Line) :
    lineEq l r = true ↔ l.line_ndx = r.line_ndx ∧ l.content = r.content := by
  simp [lineEq]

/-- C2 (code evaluation at the failing input): after a successful argument
parse the exit status of `main` is 0 for every choice of file contents —
in particular for two differing buffers, where the claim and the code's own
comment require status 1 — while only an insufficient-argument parse
failure produces status 2. -/
theorem c2_exit_code_unconditional :
    (∀ readFile : String → List Nat,
      Sdiff.main_exit_code ["sdiff", "f1", "f2"] readFile = 0)
    ∧ (∀ readFile : String → List Nat, Sdiff.main_exit_code ["sdiff"] readFile = 2) :=
  ⟨fun _ => rfl, fun _ => rfl⟩

/-- C3: a freshly dispatched row is the left content (truncated), the
padding, then a separator symbol chosen purely by content-equality and
absence checks — `>` when the left side is absent, `<` when the right side
is absent, the single-space identical symbol exactly when the two contents
are byte-equal and `|` otherwise — independent of any edit-script tag
(none reaches the formatter). -/
theorem c3_symbol_by_content (d : Diff) (output already : List Nat)
    (h : d.left_ln.line_ndx ∉ already) :
    (dispatch_to_output output d already).1 =
      output ++ limited_string d.left_ln.content 61
        ++ List.replicate ((61 - (limited_string d.left_ln.content 61).length) + 1) 32
        ++ claimSymbol d.left_ln.content d.right_ln.content
        ++ [32] ++ limited_string d.right_ln.content 61 ++ [10] := by
  rw [dispatch_fresh _ _ _ h]
  simp [rowBytes_eq, List.append_assoc]

/-- C3 (witness): the row for the differing pair `"a"` / `"b"`. -/
theorem c3_symbol_by_content_witness :
    (Diff.mk (Line.mk 0 [97]) (Line.mk 0 [98])).left_ln.line_ndx ∉ ([] : List Nat)
    ∧ (dispatch_to_output [] (Diff.mk (Line.mk 0 [97]) (Line.mk 0 [98])) []).1 =
        [] ++ limited_string [97] 61
          ++ List.replicate ((61 - (limited_string [97] 61).length) + 1) 32
          ++ claimSymbol [97] [98] ++ [32] ++ limited_string [98] 61 ++ [10] :=
  ⟨by decide, c3_symbol_by_content (Diff.mk (Line.mk 0 [97]) (Line.mk 0 [98])) [] [] (by decide)⟩

/-- C4 (counterexample): for the buffer `"\n"` — two lines, the first
empty — `diff(A, A)` yields the empty output, not one row per line of A,
because the empty-comparison short-circuit fires. -/
theorem c4_counterexample :
    diff [10] [10] = [] ∧ (split_lines [10]).length = 2
    ∧ ¬ (diff [10] [10]).count 10 = (split_lines [10]).length := by
  decide

/-- C4 (amended): for every buffer A whose first line is nonempty,
`diff(A, A)` is exactly one identical-symbol row per line of A, and when
every line is at most 61 bytes long the shown content is the full line
content, untruncated. -/
theorem c4_self_rows (A : List Nat)
    (hne : (split_lines A).headI.content ≠ [])
    (hlen : ∀ l ∈ split_lines A, l.content.length ≤ 61) :
    diff A A = (split_lines A).flatMap
      (fun l => l.content ++ List.replicate ((61 - l.content.length) + 1) 32
        ++ [32] ++ [32] ++ l.content ++ [10]) := by
  rw [diff_eq, if_neg (by tauto)]
  rw [slice_self lineEq lineEq_self]
  have hnodup : ((split_lines A).map Line.line_ndx).Nodup := by
    rw [split_lines_map_ndx]; exact List.nodup_range _
  have hfresh : ∀ l ∈ split_lines A, l.line_ndx ∉ ([] : List Nat) := by simp
  rw [processEntries_both (split_lines A) (split_lines A) (split_lines A) [] [] hfresh hnodup]
  simp only [List.nil_append]
  refine List.flatMap_congr fun l hl => ?_
  have : limited_string l.content 61 = l.content :=
    List.take_of_length_le (hlen l hl)
  rw [identRow, this]

/-- C4 (witness): `diff("ab", "ab")` is one identical row. -/
theorem c4_self_rows_witness :
    ((split_lines [97, 98]).headI.content ≠ []
      ∧ ∀ l ∈ split_lines [97, 98], l.content.length ≤ 61)
    ∧ diff [97, 98] [97, 98] = (split_lines [97, 98]).flatMap
        (fun l => l.content ++ List.replicate ((61 - l.content.length) + 1) 32
          ++ [32] ++ [32] ++ l.content ++ [10]) :=
  ⟨⟨by decide, by decide⟩, c4_self_rows [97, 98] (by decide) (by decide)⟩

/-- C5 (counterexample): for left = `"a\na"`, right = `"a"`, the edit
script has two entries and `diff` emits two rows (each row ends in exactly
one newline byte, so rows are counted by counting the byte 10) — not one
row fewer than the entry count. -/
theorem c5_counterexample :
    ¬ (diff [97, 10, 97] [97]).count 10
        = (slice lineEq (split_lines [97, 10, 97]) (split_lines [97])).length - 1 := by
  decide

/-- C5 (amended): away from the empty-first-lines short-circuit, the number
of rows of `diff(A, B)` (counted by newline bytes) equals the number of
distinct left-line indices touched across the edit script — at most one row
per left-line index, duplicates skipped silently.  For left = `"a\na"`,
right = `"a"` the two entries touch two distinct indices, so two rows are
emitted from two entries; overlap occurs instead for changed-line pairs
such as left = `"b"`, right = `"a"`, whose two entries yield one row. -/
theorem c5_dedup_rows :
    (∀ A B : List Nat,
      ¬ ((split_lines A).headI.content = [] ∧ (split_lines B).headI.content = []) →
      (diff A B).count 10 =
        (((slice lineEq (split_lines A) (split_lines B)).map touchedNdx).toFinset).card)
    ∧ (diff [97, 10, 97] [97]).count 10 = 2
    ∧ (slice lineEq (split_lines [97, 10, 97]) (split_lines [97])).length = 2
    ∧ (diff [98] [97]).count 10 = 1
    ∧ (slice lineEq (split_lines [98]) (split_lines [97])).length = 2 := by
  refine ⟨fun A B h => ?_, by decide, by decide, by decide, by decide⟩
  rw [diff_eq, if_neg h]
  have h1 := processEntries_count (split_lines A) (split_lines B)
    (split_lines_pos_indexed A) (split_lines_no_nl A) (split_lines_no_nl B)
    (slice lineEq (split_lines A) (split_lines B)) [] []
    (slice_wf lineEq (split_lines A) (split_lines B))
  rw [h1, newDist_card]
  simp

/-- C5 (witness): the dedup row-count equation at left = `"a"`,
right = `"b"`. -/
theorem c5_dedup_rows_witness :
    ¬ ((split_lines [97]).headI.content = [] ∧ (split_lines [98]).headI.content = [])
    ∧ (diff [97] [98]).count 10 =
        (((slice lineEq (split_lines [97]) (split_lines [98])).map touchedNdx).toFinset).card :=
  ⟨by decide, c5_dedup_rows.1 [97] [98] (by decide)⟩

/-- C6: comparing two empty buffers yields the empty output: no blank row
is emitted for the match of the two synthetic empty lines. -/
theorem c6_empty_empty : diff [] [] = [] := rfl

/-- C7: displayed content is cut to exactly the first 61 bytes
(byte-indexed), and every byte of `diff(A, B)` is either a framing byte
(newline, space, `<`, `>`, `|`) or a byte of the first-61-byte prefix of
some line of the two inputs — content beyond offset 61 of a line never
reaches the output. -/
theorem c7_truncation :
    (∀ s : List Nat, 61 < s.length →
        limited_string s 61 = s.take 61 ∧ (limited_string s 61).length = 61)
    ∧ ∀ (A B : List Nat) (b : Nat), b ∈ diff A B →
        b = 10 ∨ b = 32 ∨ b = 60 ∨ b = 62 ∨ b = 124 ∨
          ∃ l ∈ split_lines A ++ split_lines B, b ∈ l.content.take 61 := by
  constructor
  · intro s hs
    refine ⟨rfl, ?_⟩
    simp only [limited_string, List.length_take]
    omega
  · intro A B b hb
    rw [diff_eq] at hb
    split_ifs at hb
    · simp at hb
    · have h1 := processEntries_mem (split_lines A) (split_lines B)
        (slice lineEq (split_lines A) (split_lines B)) [] [] b
        (slice_wf lineEq (split_lines A) (split_lines B)) hb
      simp only [List.not_mem_nil, false_or] at h1
      have hbridge : (∃ l, (l ∈ split_lines A ∨ l ∈ split_lines B) ∧ b ∈ l.content.take 61) →
          ∃ l ∈ split_lines A ++ split_lines B, b ∈ l.content.take 61 := by
        rintro ⟨l, hl, hm⟩
        exact ⟨l, List.mem_append.mpr hl, hm⟩
      exact Or.imp id (Or.imp id (Or.imp id (Or.imp id (Or.imp id hbridge)))) h1

/-- C7 (witness): a 70-byte content is cut to its first 61 bytes, and the
content byte 97 of `diff("a", "b")` comes from a line prefix. -/
theorem c7_truncation_witness :
    (61 < (List.replicate 70 7 : List Nat).length
      ∧ limited_string (List.replicate 70 7) 61 = (List.replicate 70 7 : List Nat).take 61
      ∧ (limited_string (List.replicate 70 7) 61).length = 61)
    ∧ (97 ∈ diff [97] [98]
      ∧ (97 = 10 ∨ 97 = 32 ∨ 97 = 60 ∨ 97 = 62 ∨ 97 = 124 ∨
          ∃ l ∈ split_lines [97] ++ split_lines [98], 97 ∈ l.content.take 61)) :=
  ⟨⟨by decide, c7_truncation.1 (List.replicate 70 7) (by decide)⟩,
   ⟨by decide, c7_truncation.2 [97] [98] 97 (by decide)⟩⟩

/-- C8: in a freshly dispatched row the (possibly truncated) left content
is followed by exactly `max(limiter - leftLength, 0) + 1` space bytes of
padding, with the `+ 1` guaranteeing at least one separating space before
the symbol even when the left content meets the limiter 61. -/
theorem c8_left_padding (d : Diff) (output already : List Nat)
    (h : d.left_ln.line_ndx ∉ already) :
    (dispatch_to_output output d already).1 =
      output ++ limited_string d.left_ln.content 61
        ++ List.replicate
            ((max ((61 : Int) - ((limited_string d.left_ln.content 61).length : Int)) 0).toNat + 1)
            32
        ++ claimSymbol d.left_ln.content d.right_ln.content
        ++ [32] ++ limited_string d.right_ln.content 61 ++ [10] := by
  rw [dispatch_fresh _ _ _ h]
  have hpad : (max ((61 : Int) - ((limited_string d.left_ln.content 61).length : Int)) 0).toNat + 1
      = (61 - (limited_string d.left_ln.content 61).length) + 1 := by
    omega
  rw [hpad]
  simp [rowBytes_eq, List.append_assoc]

/-- C8 (witness): the padding for a 70-byte left content truncated to 61
bytes is the minimum single separating space. -/
theorem c8_left_padding_witness :
    (Diff.mk (Line.mk 0 (List.replicate 70 97)) (Line.mk 0 [98])).left_ln.line_ndx
      ∉ ([] : List Nat)
    ∧ (dispatch_to_output []
        (Diff.mk (Line.mk 0 (List.replicate 70 97)) (Line.mk 0 [98])) []).1 =
      [] ++ limited_string (List.replicate 70 97) 61
        ++ List.replicate
            ((max ((61 : Int) - ((limited_string (List.replicate 70 97) 61).length : Int)) 0).toNat
              + 1) 32
        ++ claimSymbol (List.replicate 70 97) [98]
        ++ [32] ++ limited_string [98] 61 ++ [10] :=
  ⟨by decide,
   c8_left_padding (Diff.mk (Line.mk 0 (List.replicate 70 97)) (Line.mk 0 [98])) [] []
     (by decide)⟩

/-- C9: splitting any byte buffer — the empty buffer included — produces at
least one `Line`, the empty buffer producing exactly one `Line` with empty
content, so the reconciler's access to the first line of each split
sequence is always in bounds (and `diff`, a Lean function, is total by
construction). -/
theorem c9_split_nonempty :
    (∀ input : List Nat, ∃ l rest, split_lines input = l :: rest)
    ∧ split_lines [] = [Line.mk 0 []] := by
  constructor
  · intro input
    cases h : split_lines input with
    | nil => exact absurd h (split_lines_ne_nil input)
    | cons l rest => exact ⟨l, rest, rfl⟩
  · rfl

/-- C10: whenever the first line (the bytes before the first `\n`) of each
input is empty, `diff` returns the empty output — even for nonempty,
differing buffers — because the short-circuit tests only the first line's
content. -/
theorem c10_first_line_shortcircuit (A B : List Nat)
    (hA : A.takeWhile (fun c => c != 10) = [])
    (hB : B.takeWhile (fun c => c != 10) = []) :
    diff A B = [] := by
  have h1 : (split_lines A).headI.content = [] := by
    rw [split_lines_headI_content, hA]
  have h2 : (split_lines B).headI.content = [] := by
    rw [split_lines_headI_content, hB]
  rw [diff_eq, if_pos ⟨h1, h2⟩]

/-- C10 (witness): `diff("\na", "\nb")` is empty although the inputs are
nonempty and differ. -/
theorem c10_first_line_shortcircuit_witness :
    ([10, 97] : List Nat).takeWhile (fun c => c != 10) = []
    ∧ ([10, 98] : List Nat).takeWhile (fun c => c != 10) = []
    ∧ diff [10, 97] [10, 98] = [] :=
  ⟨by decide, by decide, c10_first_line_shortcircuit [10, 97] [10, 98] (by decide) (by decide)⟩

end SideDiff
